import Mathlib

/-!
Formal model of the opensooq-analyzer scraping pipeline.

The definitions below are shallow embeddings of the TypeScript functions in
`backend/src/services/scraper.ts` and of `detectOutliers` in the frontend
`App.tsx`.  Numbers are modelled as exact rationals (`ℚ`), JavaScript
`number | null` as `Option ℚ`, and JavaScript objects used as string maps as
association lists with JS-object assignment semantics (overwrite in place,
append new keys at the end).
-/

namespace OpenSooq

/-! ### Price parsing (`parsePrice`)

`parsePrice` first rejects the empty string (JS falsiness of `""`), strips
every character that is not a digit or `'.'` (the regex `/[^\d.]/g`), and runs
`parseFloat` on the remainder.  Since the cleaned string contains only digits
and dots, `parseFloat` is modelled on that restricted alphabet: it reads the
longest prefix `digits [ '.' digits ]` or `'.' digits`, and yields `NaN`
(here: `none`) when no such non-empty prefix exists. -/

/-- Value of a digit string read in base 10, as `parseFloat` reads the
integer part. -/
def digitsToNat (l : List Char) : ℕ :=
  l.foldl (fun a c => 10 * a + (c.toNat - 48)) 0

/-- Model of JavaScript `parseFloat` restricted to strings over the alphabet
of digits and `'.'` (the only characters the cleaning step can leave). -/
def parseFloatDigitsDot (l : List Char) : Option ℚ :=
  match l.dropWhile Char.isDigit with
  | '.' :: rest2 =>
    if l.takeWhile Char.isDigit = [] ∧ rest2.takeWhile Char.isDigit = [] then none
    else
      some ((digitsToNat (l.takeWhile Char.isDigit) : ℚ) +
        (digitsToNat (rest2.takeWhile Char.isDigit) : ℚ) /
          (10 : ℚ) ^ (rest2.takeWhile Char.isDigit).length)
  | _ =>
    if l.takeWhile Char.isDigit = [] then none
    else some (digitsToNat (l.takeWhile Char.isDigit))

/-- The cleaning step `priceText.replace(/[^\d.]/g, '')`: keep only digits
and dots. -/
def cleanPriceChars (s : String) : List Char :=
  s.data.filter (fun c => c.isDigit || c = '.')

/-- `parsePrice` from `scraper.ts`: empty text is `null`; otherwise clean and
`parseFloat`, with `NaN` mapped to `null`. -/
def parsePrice (priceText : String) : Option ℚ :=
  if priceText = "" then none
  else parseFloatDigitsDot (cleanPriceChars priceText)

/-- Spec-side predicate ("the cleaned string has a valid numeric parse"):
a digit/dot string has a valid numeric parse exactly when it starts with a
digit, or starts with `'.'` immediately followed by a digit. -/
def specHasNumericParse : List Char → Bool
  | [] => false
  | c :: rest =>
    c.isDigit || (c = '.' && match rest with
      | c2 :: _ => c2.isDigit
      | [] => false)

/-! ### Aggregation step of `scrapeOpenSooq` -/

/-- The fields of a scraped item that the aggregation and outlier logic read:
its identity (detail-page link) and its parsed price. -/
structure ScrapedItem where
  link : String
  price : Option ℚ
deriving DecidableEq

/-- The result structure returned by `scrapeOpenSooq` (statistics part). -/
structure ScrapeResult where
  items : List ScrapedItem
  minPrice : Option ℚ
  maxPrice : Option ℚ
  avgPrice : Option ℚ
  totalItems : ℕ
deriving DecidableEq

/-- JavaScript `Math.round` on a non-negative value: round to nearest,
halves toward `+∞`. -/
def jsRound (q : ℚ) : ℤ := ⌊q + 1 / 2⌋

/-- The filter `item.price !== null && item.price > 0`. -/
def hasPositivePrice (it : ScrapedItem) : Bool :=
  match it.price with
  | some p => decide (0 < p)
  | none => false

/-- `Math.min(...prices)` for a non-empty list, `null` for an empty one. -/
def listMin : List ℚ → Option ℚ
  | [] => none
  | h :: t => some (t.foldl min h)

/-- `Math.max(...prices)` for a non-empty list, `null` for an empty one. -/
def listMax : List ℚ → Option ℚ
  | [] => none
  | h :: t => some (t.foldl max h)

/-- `prices.reduce((a, b) => a + b, 0)`. -/
def listSum (l : List ℚ) : ℚ := l.foldl (· + ·) 0

/-- The aggregation step at the end of `scrapeOpenSooq`: filter to items with
a strictly positive price, then compute `minPrice`, `maxPrice`,
`avgPrice = Math.round(sum / count)` and `totalItems`. -/
def aggregate (items : List ScrapedItem) : ScrapeResult :=
  let itemsWithPrices := items.filter hasPositivePrice
  let prices := itemsWithPrices.filterMap (fun it => it.price)
  { items := itemsWithPrices
    minPrice := listMin prices
    maxPrice := listMax prices
    avgPrice :=
      if 0 < prices.length then
        some ((jsRound (listSum prices / (prices.length : ℚ)) : ℤ) : ℚ)
      else none
    totalItems := itemsWithPrices.length }

/-- The list `items.filter(item => item.price !== null && item.price > 0)`
built by the aggregation step. -/
def retainedOf (items : List ScrapedItem) : List ScrapedItem :=
  items.filter hasPositivePrice

/-- The price list `itemsWithPrices.map(item => item.price).filter(p => p !== null)`. -/
def pricesOf (items : List ScrapedItem) : List ℚ :=
  (retainedOf items).filterMap (fun it => it.price)

/-! ### Outlier detection (`detectOutliers` in the frontend `App.tsx`) -/

/-- The `(link, price)` pairs of positive-priced items that `detectOutliers`
operates on. -/
def pricedOf (items : List ScrapedItem) : List (String × ℚ) :=
  (items.filter hasPositivePrice).map (fun it => (it.link, it.price.getD 0))

/-- The price list sorted ascending, as `sort((a, b) => a - b)` produces
(rational values admit a unique sorted rearrangement, which the stable
insertion sort computes). -/
def sortedPricesOf (items : List ScrapedItem) : List ℚ :=
  ((pricedOf items).map (fun lp => lp.2)).insertionSort (· ≤ ·)

/-- `Math.floor(sortedPrices.length * 0.25)`; `n * 0.25` is exact in binary
floating point, so this is `⌊n / 4⌋`. -/
def q1IndexOf (items : List ScrapedItem) : ℕ := (sortedPricesOf items).length / 4

/-- `Math.floor(sortedPrices.length * 0.75)` = `⌊3n / 4⌋`. -/
def q3IndexOf (items : List ScrapedItem) : ℕ := 3 * (sortedPricesOf items).length / 4

def q1Of (items : List ScrapedItem) : ℚ := (sortedPricesOf items).getD (q1IndexOf items) 0

def q3Of (items : List ScrapedItem) : ℚ := (sortedPricesOf items).getD (q3IndexOf items) 0

def lowerBoundOf (items : List ScrapedItem) : ℚ :=
  q1Of items - 2 * (q3Of items - q1Of items)

def upperBoundOf (items : List ScrapedItem) : ℚ :=
  q3Of items + 2 * (q3Of items - q1Of items)

/-- `detectOutliers` from `App.tsx`: with fewer than 4 positive-priced items
return the empty set; otherwise flag the link of every priced item whose
price falls outside `[q1 - 2*iqr, q3 + 2*iqr]`. -/
def detectOutliers (items : List ScrapedItem) : Finset String :=
  if (pricedOf items).length < 4 then ∅
  else
    (pricedOf items).foldl
      (fun s lp =>
        if lp.2 < lowerBoundOf items ∨ upperBoundOf items < lp.2 then insert lp.1 s
        else s)
      ∅

/-! ### Pagination dedup (listing accumulation loop of `scrapeOpenSooq`) -/

/-- A listing summary extracted from a search-results page. -/
structure ListingItem where
  link : String
  title : String
  image : String
deriving DecidableEq

/-- One step of the accumulation loop: `if (!seenLinks.has(listing.link))
{ seenLinks.add(listing.link); allListings.push(listing); }`.  The state is
`(seenLinks, allListings)`. -/
def addListing (st : List String × List ListingItem) (listing : ListingItem) :
    List String × List ListingItem :=
  if st.1.contains listing.link then st
  else (listing.link :: st.1, st.2 ++ [listing])

/-- The pagination loop's listing accumulation over the sequence of pages it
fetches: each page's listings are merged in order, skipping already-seen
identities. -/
def crawlState (pages : List (List ListingItem)) : List String × List ListingItem :=
  pages.foldl (fun st page => page.foldl addListing st) ([], [])

/-- The accumulated `allListings` handed to the detail-scrape phase. -/
def crawlListings (pages : List (List ListingItem)) : List ListingItem :=
  (crawlState pages).2

/-- Loop invariant of the accumulation: accumulated identities are pairwise
distinct, and `seenLinks` holds exactly the accumulated identities. -/
def crawlInv (st : List String × List ListingItem) : Prop :=
  (st.2.map (fun it => it.link)).Nodup ∧
  ∀ l : String, st.1.contains l = true ↔ ∃ it ∈ st.2, it.link = l

/-! ### Retrying fetch (`fetchPageWithRetry`) -/

/-- Outcome of one HTTP attempt: a body, an HTTP error status, or a
network-level failure with no response. -/
inductive FetchOutcome where
  | success (body : String)
  | httpError (status : ℕ)
  | networkError
deriving DecidableEq

/-- The retry condition `status === 429 || status === 503 || status === 502
|| !status` (a success never reaches the catch block). -/
def isRetryable : FetchOutcome → Bool
  | .success _ => false
  | .httpError s => s == 429 || s == 503 || s == 502
  | .networkError => true

def MAX_RETRIES : ℕ := 3
def INITIAL_DELAY : ℕ := 300

/-- `fetchPageWithRetry`, modelled over the sequence of attempt outcomes
`resp` (attempt `k` of this call chain observes `resp (attempt + k)`).
Returns the final result together with the list of backoff delays awaited,
in order.  Mirrors the source: the guard `retries > 0 && retryable` is
realized by the pattern split on `retries`; on a retryable failure with
retries left it waits `delayMs * 2` and recurses with that doubled delay
and `retries - 1`. -/
def fetchPageWithRetry (resp : ℕ → FetchOutcome) :
    ℕ → ℕ → ℕ → Except FetchOutcome String × List ℕ
  | attempt, 0, _ =>
    match resp attempt with
    | .success body => (Except.ok body, [])
    | outcome => (Except.error outcome, [])
  | attempt, retries + 1, delayMs =>
    match resp attempt with
    | .success body => (Except.ok body, [])
    | outcome =>
      if isRetryable outcome = true then
        ((fetchPageWithRetry resp (attempt + 1) retries (delayMs * 2)).1,
          delayMs * 2 :: (fetchPageWithRetry resp (attempt + 1) retries (delayMs * 2)).2)
      else (Except.error outcome, [])

/-! ### Detail-page attribute extraction (`scrapeItemDetails`) -/

/-- An attribute value: scalar, or a sequence when the comma-split yields
more than one non-empty piece. -/
inductive AttrValue where
  | scalar (s : String)
  | values (l : List String)
deriving DecidableEq

/-- Model of JavaScript `String.prototype.split(',')`: split on every comma,
keeping empty pieces (`"".split(',')` is `[""]`). -/
def splitComma : List Char → List (List Char)
  | [] => [[]]
  | c :: rest =>
    if c = ',' then [] :: splitComma rest
    else
      match splitComma rest with
      | [] => [[c]]
      | piece :: pieces => (c :: piece) :: pieces

/-- Model of JavaScript `String.prototype.trim()`: strip whitespace from both
ends. -/
def jsTrim (s : String) : String :=
  ⟨((s.data.dropWhile Char.isWhitespace).reverse.dropWhile Char.isWhitespace).reverse⟩

/-- `valueText.split(',').map(v => v.trim()).filter(v => v)` followed by
`values.length > 1 ? values : valueText`. -/
def splitCommaRule (valueText : String) : AttrValue :=
  let pieces := ((splitComma valueText.data).map (fun p => jsTrim ⟨p⟩)).filter
    (fun v => v ≠ "")
  if 1 < pieces.length then .values pieces else .scalar valueText

/-- JS-object assignment `attributes[key] = value` on an association list:
replace in place if the key exists, else append. -/
def setAttr : List (String × AttrValue) → String → AttrValue → List (String × AttrValue)
  | [], k, v => [(k, v)]
  | (k', v') :: rest, k, v =>
    if k' = k then (k', v) :: rest else (k', v') :: setAttr rest k v

/-- Key lookup in the attributes object. -/
def getAttr (attrs : List (String × AttrValue)) (k : String) : Option AttrValue :=
  (attrs.find? (fun kv => kv.1 = k)).map (fun kv => kv.2)

/-- The fields of a `[data-id^="singeInfoField_"]` element that the first
extraction pass reads. -/
structure InfoField where
  key : String
  isFullRow : Bool
  hasWidth75 : Bool
  width75Text : String
  boldText : String
deriving DecidableEq

/-- The fields of a `li.fullRow` element that the second pass reads. -/
structure FullRowItem where
  key : String
  width75Text : String
deriving DecidableEq

/-- First pass body: full-row fields get the comma-split value when the
wide-value text is non-empty; regular fields get the bold value when both
key and value are non-empty. -/
def firstPassStep (attrs : List (String × AttrValue)) (f : InfoField) :
    List (String × AttrValue) :=
  if f.isFullRow || f.hasWidth75 then
    if f.width75Text ≠ "" then setAttr attrs f.key (splitCommaRule f.width75Text)
    else attrs
  else
    if f.key ≠ "" ∧ f.boldText ≠ "" then setAttr attrs f.key (.scalar f.boldText)
    else attrs

def firstPass (fields : List InfoField) : List (String × AttrValue) :=
  fields.foldl firstPassStep []

/-- Second pass body: assign the comma-split value when key and value are
non-empty and the key is not `"VIN Number"`. -/
def secondPassStep (attrs : List (String × AttrValue)) (f : FullRowItem) :
    List (String × AttrValue) :=
  if f.key ≠ "" ∧ f.width75Text ≠ "" ∧ f.key ≠ "VIN Number" then
    setAttr attrs f.key (splitCommaRule f.width75Text)
  else attrs

def secondPass (attrs : List (String × AttrValue)) (fullRows : List FullRowItem) :
    List (String × AttrValue) :=
  fullRows.foldl secondPassStep attrs

/-- The whole attribute extraction of `scrapeItemDetails`. -/
def scrapeAttributes (fields : List InfoField) (fullRows : List FullRowItem) :
    List (String × AttrValue) :=
  secondPass (firstPass fields) fullRows

/-- Whether a second-pass element writes the attribute key `k`. -/
def writesKey (k : String) (f : FullRowItem) : Bool :=
  f.key = k && f.key ≠ "" && f.width75Text ≠ "" && f.key ≠ "VIN Number"

/-! ### The detail worker (`scrapeItemDetails` as a whole) -/

/-- The markup of a detail page, as far as `scrapeItemDetails` reads it. -/
structure DetailPage where
  priceText : String
  description : String
  infoFields : List InfoField
  fullRows : List FullRowItem
deriving DecidableEq

/-- The `ListingDetail` record returned by the detail worker. -/
structure ListingDetail where
  price : Option ℚ
  priceText : String
  description : String
  attributes : List (String × AttrValue)
deriving DecidableEq

/-- The zero-value detail returned by the catch block. -/
def zeroDetail : ListingDetail :=
  { price := none, priceText := "", description := "", attributes := [] }

/-- `scrapeItemDetails`: the whole body is wrapped in try/catch, so a fetch
failure (after retries) yields the zero-value detail; a fetched page is
processed by the pure extraction steps, which cannot raise. -/
def scrapeItemDetails (fetched : Except FetchOutcome DetailPage) : ListingDetail :=
  match fetched with
  | .error _ => zeroDetail
  | .ok page =>
    { price := parsePrice page.priceText
      priceText := page.priceText
      description := page.description
      attributes := scrapeAttributes page.infoFields page.fullRows }

/-! ### Helper lemmas about folds, min/max and rounding -/

lemma foldl_min_le_init (t : List ℚ) (a : ℚ) : t.foldl min a ≤ a := by
  induction t generalizing a with
  | nil => simp
  | cons h t ih =>
    have := ih (min a h)
    simp only [List.foldl_cons]
    exact le_trans this (min_le_left _ _)

lemma foldl_min_le_mem (t : List ℚ) (a x : ℚ) (hx : x ∈ t) :
    t.foldl min a ≤ x := by
  induction t generalizing a with
  | nil => cases hx
  | cons h t ih =>
    simp only [List.foldl_cons]
    rcases List.mem_cons.1 hx with rfl | hx
    · exact le_trans (foldl_min_le_init _ _) (min_le_right _ _)
    · exact ih _ hx

lemma foldl_min_mem (t : List ℚ) (a : ℚ) :
    t.foldl min a = a ∨ t.foldl min a ∈ t := by
  induction t generalizing a with
  | nil => left; rfl
  | cons h t ih =>
    simp only [List.foldl_cons]
    rcases ih (min a h) with heq | hmem
    · rw [heq]
      rcases le_total a h with hab | hba
      · left; exact min_eq_left hab
      · right; rw [min_eq_right hba]; exact List.mem_cons_self _ _
    · right; exact List.mem_cons_of_mem _ hmem

lemma init_le_foldl_max (t : List ℚ) (a : ℚ) : a ≤ t.foldl max a := by
  induction t generalizing a with
  | nil => simp
  | cons h t ih =>
    have := ih (max a h)
    simp only [List.foldl_cons]
    exact le_trans (le_max_left _ _) this

lemma mem_le_foldl_max (t : List ℚ) (a x : ℚ) (hx : x ∈ t) :
    x ≤ t.foldl max a := by
  induction t generalizing a with
  | nil => cases hx
  | cons h t ih =>
    simp only [List.foldl_cons]
    rcases List.mem_cons.1 hx with rfl | hx
    · exact le_trans (le_max_right _ _) (init_le_foldl_max _ _)
    · exact ih _ hx

lemma foldl_max_mem (t : List ℚ) (a : ℚ) :
    t.foldl max a = a ∨ t.foldl max a ∈ t := by
  induction t generalizing a with
  | nil => left; rfl
  | cons h t ih =>
    simp only [List.foldl_cons]
    rcases ih (max a h) with heq | hmem
    · rw [heq]
      rcases le_total a h with hab | hba
      · right; rw [max_eq_right hab]; exact List.mem_cons_self _ _
      · left; exact max_eq_left hba
    · right; exact List.mem_cons_of_mem _ hmem

/-- `listMin` of a non-empty list is a member and a lower bound. -/
lemma listMin_spec (l : List ℚ) (hl : l ≠ []) :
    ∃ m, listMin l = some m ∧ m ∈ l ∧ ∀ x ∈ l, m ≤ x := by
  match l, hl with
  | h :: t, _ =>
    refine ⟨t.foldl min h, rfl, ?_, ?_⟩
    · rcases foldl_min_mem t h with heq | hmem
      · rw [heq]; exact List.mem_cons_self _ _
      · exact List.mem_cons_of_mem _ hmem
    · intro x hx
      rcases List.mem_cons.1 hx with rfl | hx
      · exact foldl_min_le_init _ _
      · exact foldl_min_le_mem _ _ _ hx

/-- `listMax` of a non-empty list is a member and an upper bound. -/
lemma listMax_spec (l : List ℚ) (hl : l ≠ []) :
    ∃ M, listMax l = some M ∧ M ∈ l ∧ ∀ x ∈ l, x ≤ M := by
  match l, hl with
  | h :: t, _ =>
    refine ⟨t.foldl max h, rfl, ?_, ?_⟩
    · rcases foldl_max_mem t h with heq | hmem
      · rw [heq]; exact List.mem_cons_self _ _
      · exact List.mem_cons_of_mem _ hmem
    · intro x hx
      rcases List.mem_cons.1 hx with rfl | hx
      · exact init_le_foldl_max _ _
      · exact mem_le_foldl_max _ _ _ hx

lemma listSum_shift (l : List ℚ) (a : ℚ) :
    l.foldl (· + ·) a = a + l.foldl (· + ·) 0 := by
  induction l generalizing a with
  | nil => simp
  | cons h t ih =>
    simp only [List.foldl_cons]
    rw [ih (a + h), ih (0 + h)]
    ring

lemma listSum_cons (h : ℚ) (t : List ℚ) : listSum (h :: t) = h + listSum t := by
  simp only [listSum, List.foldl_cons]
  rw [listSum_shift t (0 + h)]
  ring

lemma le_listSum (l : List ℚ) (m : ℚ) (hm : ∀ x ∈ l, m ≤ x) :
    m * l.length ≤ listSum l := by
  induction l with
  | nil => simp [listSum]
  | cons h t ih =>
    rw [listSum_cons]
    have h1 : m ≤ h := hm h (List.mem_cons_self _ _)
    have h2 : m * t.length ≤ listSum t := ih (fun x hx => hm x (List.mem_cons_of_mem _ hx))
    push_cast [List.length_cons]
    nlinarith

lemma listSum_le (l : List ℚ) (M : ℚ) (hM : ∀ x ∈ l, x ≤ M) :
    listSum l ≤ M * l.length := by
  induction l with
  | nil => simp [listSum]
  | cons h t ih =>
    rw [listSum_cons]
    have h1 : h ≤ M := hM h (List.mem_cons_self _ _)
    have h2 : listSum t ≤ M * t.length := ih (fun x hx => hM x (List.mem_cons_of_mem _ hx))
    push_cast [List.length_cons]
    nlinarith

lemma jsRound_mono {q r : ℚ} (h : q ≤ r) : jsRound q ≤ jsRound r :=
  Int.floor_le_floor (by linarith)

lemma jsRound_intCast (z : ℤ) : jsRound (z : ℚ) = z := by
  simp only [jsRound]
  rw [add_comm, Int.floor_add_int]
  norm_num

lemma jsRound_le (q : ℚ) : (jsRound q : ℚ) ≤ q + 1 / 2 :=
  Int.floor_le _

lemma lt_jsRound (q : ℚ) : q - 1 / 2 < (jsRound q : ℚ) := by
  have := Int.sub_one_lt_floor (q + 1 / 2)
  simp only [jsRound]
  linarith

/-! ### Lemmas about the aggregation step -/

lemma hasPositivePrice_iff (it : ScrapedItem) :
    hasPositivePrice it = true ↔ ∃ p, it.price = some p ∧ 0 < p := by
  cases hp : it.price with
  | none => simp [hasPositivePrice, hp]
  | some p => simp [hasPositivePrice, hp]

lemma aggregate_eq (items : List ScrapedItem) :
    aggregate items =
      { items := retainedOf items
        minPrice := listMin (pricesOf items)
        maxPrice := listMax (pricesOf items)
        avgPrice :=
          if 0 < (pricesOf items).length then
            some ((jsRound (listSum (pricesOf items) / ((pricesOf items).length : ℚ)) : ℤ) : ℚ)
          else none
        totalItems := (retainedOf items).length } := rfl

lemma length_pricesOf_aux (l : List ScrapedItem) (h : ∀ it ∈ l, hasPositivePrice it = true) :
    (l.filterMap (fun it => it.price)).length = l.length := by
  induction l with
  | nil => rfl
  | cons it t ih =>
    obtain ⟨p, hp, -⟩ := (hasPositivePrice_iff it).1 (h it (List.mem_cons_self _ _))
    rw [List.filterMap_cons, hp, List.length_cons, List.length_cons,
      ih (fun x hx => h x (List.mem_cons_of_mem _ hx))]

lemma length_pricesOf (items : List ScrapedItem) :
    (pricesOf items).length = (retainedOf items).length := by
  apply length_pricesOf_aux
  intro it hit
  exact (List.mem_filter.1 hit).2

/-- **C1.** The aggregation step of `scrapeOpenSooq` retains exactly the items
with a non-null strictly positive price, sets `totalItems` to the retained
count, returns all-`none` prices when that count is 0, and otherwise returns
the minimum, maximum, and half-up-rounded arithmetic mean of the retained
prices; on retained prices `[10, 20, 30]` it yields min 10, max 30, avg 20. -/
theorem aggregate_spec (items : List ScrapedItem) :
    ((aggregate items).items = retainedOf items ∧
      ∀ it, it ∈ (aggregate items).items ↔ it ∈ items ∧ ∃ p, it.price = some p ∧ 0 < p) ∧
    (aggregate items).totalItems = (aggregate items).items.length ∧
    ((aggregate items).totalItems = 0 →
      (aggregate items).minPrice = none ∧ (aggregate items).maxPrice = none ∧
        (aggregate items).avgPrice = none) ∧
    (0 < (aggregate items).totalItems →
      (∃ m, (aggregate items).minPrice = some m ∧ m ∈ pricesOf items ∧
          ∀ p ∈ pricesOf items, m ≤ p) ∧
      (∃ M, (aggregate items).maxPrice = some M ∧ M ∈ pricesOf items ∧
          ∀ p ∈ pricesOf items, p ≤ M) ∧
      (aggregate items).avgPrice =
        some ((jsRound (listSum (pricesOf items) / ((pricesOf items).length : ℚ)) : ℤ) : ℚ)) ∧
    (∀ p : ℚ, p ∈ pricesOf items ↔ ∃ it ∈ retainedOf items, it.price = some p) ∧
    (pricesOf items).length = (retainedOf items).length ∧
    (aggregate [⟨"a", some 10⟩, ⟨"b", some 20⟩, ⟨"c", some 30⟩]).minPrice = some 10 ∧
    (aggregate [⟨"a", some 10⟩, ⟨"b", some 20⟩, ⟨"c", some 30⟩]).maxPrice = some 30 ∧
    (aggregate [⟨"a", some 10⟩, ⟨"b", some 20⟩, ⟨"c", some 30⟩]).avgPrice = some 20 := by
  have hlen := length_pricesOf items
  refine ⟨⟨by rw [aggregate_eq], ?_⟩, by rw [aggregate_eq], ?_, ?_, ?_, hlen,
    by decide, by decide, ?_⟩
  · intro it
    rw [aggregate_eq]
    simp only [retainedOf, List.mem_filter, hasPositivePrice_iff]
  · intro h0
    rw [aggregate_eq] at h0 ⊢
    simp only at h0
    have hp0 : (pricesOf items).length = 0 := by omega
    have hnil : pricesOf items = [] := List.length_eq_zero.1 hp0
    simp [hnil, listMin, listMax]
  · intro hpos
    rw [aggregate_eq] at hpos ⊢
    simp only at hpos
    have hp0 : 0 < (pricesOf items).length := by omega
    have hnil : pricesOf items ≠ [] := by
      intro h; rw [h] at hp0; simp at hp0
    obtain ⟨m, hm, hmem, hle⟩ := listMin_spec _ hnil
    obtain ⟨M, hM, hMem, hge⟩ := listMax_spec _ hnil
    exact ⟨⟨m, by simp [hm], hmem, hle⟩, ⟨M, by simp [hM], hMem, hge⟩, by simp [hp0]⟩
  · intro p
    simp only [pricesOf, List.mem_filterMap]
  · have hprices : pricesOf [⟨"a", some 10⟩, ⟨"b", some 20⟩, ⟨"c", some 30⟩]
        = [10, 20, 30] := by decide
    rw [aggregate_eq]
    simp only [hprices, List.length_cons, List.length_nil]
    rw [if_pos (by norm_num : 0 < 3)]
    have hsum : listSum [(10:ℚ), 20, 30] = 0 + 10 + 20 + 30 := rfl
    rw [hsum, show ((0:ℚ) + 10 + 20 + 30) / ((3:ℕ):ℚ) = ((20:ℤ):ℚ) by norm_num,
      jsRound_intCast]
    norm_num

/-- Witness for C1: the zero-count branch at `[]`, and the positive branch
at three integer-priced items. -/
theorem aggregate_spec_witness :
    ((aggregate []).minPrice = none ∧ (aggregate []).maxPrice = none ∧
      (aggregate []).avgPrice = none) ∧
    ((aggregate [⟨"a", some 10⟩, ⟨"b", some 20⟩, ⟨"c", some 30⟩]).minPrice = some 10 ∧
      (aggregate [⟨"a", some 10⟩, ⟨"b", some 20⟩, ⟨"c", some 30⟩]).maxPrice = some 30 ∧
      (aggregate [⟨"a", some 10⟩, ⟨"b", some 20⟩, ⟨"c", some 30⟩]).avgPrice = some 20) := by
  constructor
  · exact (aggregate_spec []).2.2.1 (by decide)
  · obtain ⟨-, -, -, -, -, -, h1, h2, h3⟩ := aggregate_spec []
    exact ⟨h1, h2, h3⟩

/-- **C2 counterexample.** At the single item with price `7/5`, all three
price fields are present but `minPrice ≤ avgPrice` fails: `Math.round(1.4)`
is `1`, below the minimum `1.4`. -/
theorem aggregate_invariant_cex :
    (aggregate [⟨"a", some (7/5)⟩]).minPrice = some (7/5) ∧
    (aggregate [⟨"a", some (7/5)⟩]).maxPrice = some (7/5) ∧
    (aggregate [⟨"a", some (7/5)⟩]).avgPrice = some 1 ∧
    (aggregate [⟨"a", some (7/5)⟩]).totalItems ≠ 0 ∧
    ¬((7:ℚ)/5 ≤ 1) := by
  have h75 : (0:ℚ) < 7/5 := by norm_num
  have hret : retainedOf [⟨"a", some (7/5)⟩] = [⟨"a", some (7/5)⟩] := by
    simp [retainedOf, List.filter, hasPositivePrice, h75]
  have hp : pricesOf [⟨"a", some (7/5)⟩] = [7/5] := by
    simp [pricesOf, hret]
  refine ⟨?_, ?_, ?_, ?_, by norm_num⟩
  · rw [aggregate_eq]; simp [hp, listMin]
  · rw [aggregate_eq]; simp [hp, listMax]
  · rw [aggregate_eq]
    simp only [hp, List.length_cons, List.length_nil]
    rw [if_pos (by norm_num : 0 < 1)]
    have hsum : listSum [(7:ℚ)/5] = 0 + 7/5 := rfl
    rw [hsum, show ((0:ℚ) + 7/5) / ((1:ℕ):ℚ) = 7/5 by norm_num]
    have hfl : jsRound (7/5 : ℚ) = 1 := by
      rw [jsRound, show ((7:ℚ)/5 + 1/2) = 19/10 by norm_num, Int.floor_eq_iff]
      norm_num
    rw [hfl]
    norm_num
  · rw [aggregate_eq]; simp [hret]

/-- **C2 (amended).** All three price fields are `none` iff `totalItems = 0`;
when present, `avgPrice` lies in `(minPrice - 1/2, maxPrice + 1/2]`, and the
claimed `minPrice ≤ avgPrice ≤ maxPrice` holds under the additional
assumption that every retained price is an integer (the counterexample shows
it fails for fractional prices). -/
theorem aggregate_invariant_amended (items : List ScrapedItem) :
    (((aggregate items).minPrice = none ∧ (aggregate items).maxPrice = none ∧
        (aggregate items).avgPrice = none) ↔ (aggregate items).totalItems = 0) ∧
    (0 < (aggregate items).totalItems →
      ∃ m M a, (aggregate items).minPrice = some m ∧
        (aggregate items).maxPrice = some M ∧
        (aggregate items).avgPrice = some a ∧
        (m - 1/2 < a ∧ a ≤ M + 1/2) ∧
        ((∀ p ∈ pricesOf items, ∃ z : ℤ, p = (z : ℚ)) → m ≤ a ∧ a ≤ M)) := by
  have hlen := length_pricesOf items
  constructor
  · rw [aggregate_eq]
    simp only
    constructor
    · rintro ⟨-, -, havg⟩
      by_contra h0
      have hp0 : 0 < (pricesOf items).length := by omega
      rw [if_pos hp0] at havg
      cases havg
    · intro h0
      have hp0 : (pricesOf items).length = 0 := by omega
      have hnil : pricesOf items = [] := List.length_eq_zero.1 hp0
      simp [hnil, listMin, listMax]
  · intro hpos
    rw [aggregate_eq] at hpos ⊢
    simp only at hpos ⊢
    have hp0 : 0 < (pricesOf items).length := by omega
    have hnil : pricesOf items ≠ [] := by
      intro h; rw [h] at hp0; simp at hp0
    obtain ⟨m, hm, hmem, hle⟩ := listMin_spec _ hnil
    obtain ⟨M, hM, hMem, hge⟩ := listMax_spec _ hnil
    have hnq : (0:ℚ) < ((pricesOf items).length : ℚ) := by exact_mod_cast hp0
    set mean := listSum (pricesOf items) / ((pricesOf items).length : ℚ) with hmean
    have hmmean : m ≤ mean := by
      rw [hmean, le_div_iff₀ hnq]
      exact le_listSum _ _ hle
    have hmeanM : mean ≤ M := by
      rw [hmean, div_le_iff₀ hnq]
      exact listSum_le _ _ hge
    refine ⟨m, M, ((jsRound mean : ℤ) : ℚ), by simp [hm], by simp [hM],
      by rw [if_pos hp0], ⟨?_, ?_⟩, ?_⟩
    · have := lt_jsRound mean
      linarith
    · have := jsRound_le mean
      linarith
    · intro hInt
      obtain ⟨zm, hzm⟩ := hInt m hmem
      obtain ⟨zM, hzM⟩ := hInt M hMem
      constructor
      · have h1 : jsRound ((zm : ℚ)) ≤ jsRound mean := jsRound_mono (hzm ▸ hmmean)
        rw [jsRound_intCast] at h1
        calc m = (zm : ℚ) := hzm
        _ ≤ ((jsRound mean : ℤ) : ℚ) := by exact_mod_cast h1
      · have h1 : jsRound mean ≤ jsRound ((zM : ℚ)) := jsRound_mono (hzM ▸ hmeanM)
        rw [jsRound_intCast] at h1
        calc ((jsRound mean : ℤ) : ℚ) ≤ (zM : ℚ) := by exact_mod_cast h1
        _ = M := hzM.symm

/-- Witness for C2 (amended): at three integer-priced items both branches are
exercised and `min ≤ avg ≤ max` is obtained. -/
theorem aggregate_invariant_amended_witness :
    ∃ m M a, (aggregate [⟨"a", some 10⟩, ⟨"b", some 20⟩, ⟨"c", some 30⟩]).minPrice = some m ∧
      (aggregate [⟨"a", some 10⟩, ⟨"b", some 20⟩, ⟨"c", some 30⟩]).maxPrice = some M ∧
      (aggregate [⟨"a", some 10⟩, ⟨"b", some 20⟩, ⟨"c", some 30⟩]).avgPrice = some a ∧
      m ≤ a ∧ a ≤ M := by
  have h := (aggregate_invariant_amended
    [⟨"a", some 10⟩, ⟨"b", some 20⟩, ⟨"c", some 30⟩]).2 (by decide)
  obtain ⟨m, M, a, hm, hM, ha, -, hint⟩ := h
  have hprices : pricesOf [⟨"a", some 10⟩, ⟨"b", some 20⟩, ⟨"c", some 30⟩]
      = [10, 20, 30] := by decide
  have hints : ∀ p ∈ pricesOf [⟨"a", some 10⟩, ⟨"b", some 20⟩, ⟨"c", some 30⟩],
      ∃ z : ℤ, p = (z : ℚ) := by
    rw [hprices]
    intro p hp
    simp only [List.mem_cons, List.not_mem_nil, or_false] at hp
    rcases hp with h | h | h
    · exact ⟨10, by rw [h]; norm_num⟩
    · exact ⟨20, by rw [h]; norm_num⟩
    · exact ⟨30, by rw [h]; norm_num⟩
  exact ⟨m, M, a, hm, hM, ha, hint hints⟩

/-! ### Lemmas about price parsing -/

lemma parseFloatDigitsDot_none_iff (l : List Char) :
    parseFloatDigitsDot l = none ↔ specHasNumericParse l = false := by
  cases l with
  | nil => simp [parseFloatDigitsDot, specHasNumericParse]
  | cons c rest =>
    by_cases hc : c.isDigit
    · have hspec : specHasNumericParse (c :: rest) = true := by
        simp [specHasNumericParse, hc]
      rw [hspec]
      simp only [Bool.true_eq_false, iff_false]
      have htake : (c :: rest).takeWhile Char.isDigit = c :: rest.takeWhile Char.isDigit := by
        simp [List.takeWhile_cons, hc]
      unfold parseFloatDigitsDot
      split
      · rw [htake]
        simp
      · rw [htake]
        simp
    · have htake : (c :: rest).takeWhile Char.isDigit = [] := by
        simp [List.takeWhile_cons, hc]
      have hdrop : (c :: rest).dropWhile Char.isDigit = c :: rest := by
        simp [List.dropWhile_cons, hc]
      have hdotdig : ('.').isDigit = false := rfl
      unfold parseFloatDigitsDot
      split
      · rename_i rest2 heq
        rw [hdrop] at heq
        injection heq with h1 h2
        subst h1
        subst h2
        rw [htake]
        simp only [specHasNumericParse, hdotdig, Bool.false_or, decide_True,
          Bool.true_and, true_and]
        cases rest with
        | nil => simp
        | cons c2 r2 =>
          by_cases h2 : c2.isDigit
          · simp [List.takeWhile_cons, h2]
          · simp [List.takeWhile_cons, h2]
      · rename_i hne
        rw [hdrop] at hne
        rw [htake]
        have hcdot : c ≠ '.' := by
          intro hceq
          exact hne rest (by rw [hceq])
        simp [specHasNumericParse, hc, hcdot]

/-- **C3.** `parsePrice(s)` is `None` exactly when the string obtained by
stripping every non-digit, non-dot character from `s` has no valid numeric
parse (it does not start with a digit, nor with a dot followed by a digit);
in particular `parsePrice("") = None`, `parsePrice("-") = None`, and
`parsePrice("1,234 JOD") = 1234`. -/
theorem parsePrice_spec :
    (∀ s : String, parsePrice s = none ↔ specHasNumericParse (cleanPriceChars s) = false) ∧
    parsePrice "" = none ∧ parsePrice "-" = none ∧
    parsePrice "1,234 JOD" = some 1234 := by
  refine ⟨?_, by decide, by decide, by decide⟩
  intro s
  by_cases hs : s = ""
  · subst hs
    have hclean : cleanPriceChars "" = [] := rfl
    rw [hclean]
    simp [parsePrice, specHasNumericParse]
  · rw [parsePrice, if_neg hs]
    exact parseFloatDigitsDot_none_iff _

/-! ### Lemmas about the pagination dedup -/

lemma crawlInv_addListing (st : List String × List ListingItem) (x : ListingItem)
    (h : crawlInv st) :
    crawlInv (addListing st x) ∧
    ∀ l, (∃ it ∈ (addListing st x).2, it.link = l) ↔
      (∃ it ∈ st.2, it.link = l) ∨ x.link = l := by
  obtain ⟨hnd, hseen⟩ := h
  by_cases hc : st.1.contains x.link = true
  · rw [addListing, if_pos hc]
    refine ⟨⟨hnd, hseen⟩, ?_⟩
    intro l
    constructor
    · exact fun h => Or.inl h
    · rintro (h | rfl)
      · exact h
      · exact (hseen x.link).1 hc
  · rw [addListing, if_neg hc]
    have hnotmem : x.link ∉ st.2.map (fun it => it.link) := by
      intro hmem
      obtain ⟨it, hit, hl⟩ := List.mem_map.1 hmem
      exact hc ((hseen x.link).2 ⟨it, hit, hl⟩)
    have hmem3 : ∀ l, (∃ it ∈ st.2 ++ [x], it.link = l) ↔
        (∃ it ∈ st.2, it.link = l) ∨ x.link = l := by
      intro l
      constructor
      · rintro ⟨it, hit, hl⟩
        rcases List.mem_append.1 hit with h | h
        · exact Or.inl ⟨it, h, hl⟩
        · rcases List.mem_singleton.1 h with rfl
          exact Or.inr hl
      · rintro (⟨it, hit, hl⟩ | hl)
        · exact ⟨it, List.mem_append_left _ hit, hl⟩
        · exact ⟨x, List.mem_append_right _ (List.mem_singleton.2 rfl), hl⟩
    refine ⟨⟨?_, ?_⟩, hmem3⟩
    · rw [List.map_append]
      simp only [List.map_cons, List.map_nil]
      rw [List.nodup_append]
      refine ⟨hnd, List.nodup_singleton _, ?_⟩
      intro y hy hy2
      simp only [List.mem_singleton] at hy2
      subst hy2
      exact hnotmem hy
    · intro l
      rw [hmem3 l]
      show (x.link :: st.1).contains l = true ↔ _
      constructor
      · intro hcl
        rcases List.mem_cons.1 (List.elem_iff.1 hcl) with rfl | hl
        · exact Or.inr rfl
        · exact Or.inl ((hseen l).1 (List.elem_iff.2 hl))
      · rintro (hl | rfl)
        · exact List.elem_iff.2 (List.mem_cons_of_mem _ (List.elem_iff.1 ((hseen l).2 hl)))
        · exact List.elem_iff.2 (List.mem_cons_self _ _)

lemma crawlInv_page (page : List ListingItem) (st : List String × List ListingItem)
    (h : crawlInv st) :
    crawlInv (page.foldl addListing st) ∧
    ∀ l, (∃ it ∈ (page.foldl addListing st).2, it.link = l) ↔
      (∃ it ∈ st.2, it.link = l) ∨ ∃ x ∈ page, x.link = l := by
  induction page generalizing st with
  | nil => simp [h]
  | cons x t ih =>
    simp only [List.foldl_cons]
    obtain ⟨h1, h2⟩ := crawlInv_addListing st x h
    obtain ⟨h3, h4⟩ := ih _ h1
    refine ⟨h3, ?_⟩
    intro l
    rw [h4 l, h2 l]
    constructor
    · rintro ((h | h) | h)
      · exact Or.inl h
      · exact Or.inr ⟨x, List.mem_cons_self _ _, h⟩
      · obtain ⟨y, hy, hl⟩ := h
        exact Or.inr ⟨y, List.mem_cons_of_mem _ hy, hl⟩
    · rintro (h | ⟨y, hy, hl⟩)
      · exact Or.inl (Or.inl h)
      · rcases List.mem_cons.1 hy with rfl | hy
        · exact Or.inl (Or.inr hl)
        · exact Or.inr ⟨y, hy, hl⟩

lemma crawlInv_pages (pages : List (List ListingItem))
    (st : List String × List ListingItem) (h : crawlInv st) :
    crawlInv (pages.foldl (fun st page => page.foldl addListing st) st) ∧
    ∀ l, (∃ it ∈ (pages.foldl (fun st page => page.foldl addListing st) st).2, it.link = l) ↔
      (∃ it ∈ st.2, it.link = l) ∨ ∃ page ∈ pages, ∃ x ∈ page, x.link = l := by
  induction pages generalizing st with
  | nil => simp [h]
  | cons page t ih =>
    simp only [List.foldl_cons]
    obtain ⟨h1, h2⟩ := crawlInv_page page st h
    obtain ⟨h3, h4⟩ := ih _ h1
    refine ⟨h3, ?_⟩
    intro l
    rw [h4 l, h2 l]
    constructor
    · rintro ((h | h) | h)
      · exact Or.inl h
      · exact Or.inr ⟨page, List.mem_cons_self _ _, h⟩
      · obtain ⟨p, hp, hx⟩ := h
        exact Or.inr ⟨p, List.mem_cons_of_mem _ hp, hx⟩
    · rintro (h | ⟨p, hp, hx⟩)
      · exact Or.inl (Or.inl h)
      · rcases List.mem_cons.1 hp with rfl | hp
        · exact Or.inl (Or.inr hx)
        · exact Or.inr ⟨p, hp, hx⟩

/-- **C5.** Over any run of the pagination crawler, the accumulated listing
identities are pairwise distinct (an identity seen on an earlier page is
skipped), and the accumulated identity set is exactly the union of the
pages' identity sets. -/
theorem crawl_dedup_spec (pages : List (List ListingItem)) :
    ((crawlListings pages).map (fun it => it.link)).Nodup ∧
    ∀ l, (∃ it ∈ crawlListings pages, it.link = l) ↔
      ∃ page ∈ pages, ∃ it ∈ page, it.link = l := by
  have hinit : crawlInv ([], []) := by
    constructor
    · simp
    · intro l
      simp [List.contains]
  obtain ⟨⟨hnd, -⟩, hmem⟩ := crawlInv_pages pages ([], []) hinit
  refine ⟨hnd, ?_⟩
  intro l
  rw [crawlListings, crawlState, hmem l]
  simp

/-! ### Lemmas about the retrying fetch -/

lemma isRetryable_iff (o : FetchOutcome) :
    isRetryable o = true ↔
      o = .networkError ∨ ∃ s, o = .httpError s ∧ (s = 429 ∨ s = 502 ∨ s = 503) := by
  cases o with
  | success body => simp [isRetryable]
  | networkError => simp [isRetryable]
  | httpError s =>
    simp only [isRetryable, Bool.or_eq_true, beq_iff_eq]
    constructor
    · rintro ((h | h) | h)
      · exact Or.inr ⟨s, rfl, Or.inl h⟩
      · exact Or.inr ⟨s, rfl, Or.inr (Or.inr h)⟩
      · exact Or.inr ⟨s, rfl, Or.inr (Or.inl h)⟩
    · rintro (h | ⟨s2, heq, h⟩)
      · cases h
      · injection heq with h2
        subst h2
        rcases h with h | h | h
        · exact Or.inl (Or.inl h)
        · exact Or.inr h
        · exact Or.inl (Or.inr h)

lemma fetchRetry_spec (resp : ℕ → FetchOutcome) (retries attempt delayMs : ℕ) :
    (fetchPageWithRetry resp attempt retries delayMs).2.length ≤ retries ∧
    (∀ k, k < (fetchPageWithRetry resp attempt retries delayMs).2.length →
      isRetryable (resp (attempt + k)) = true ∧
      (fetchPageWithRetry resp attempt retries delayMs).2.getD k 0 = delayMs * 2 ^ (k + 1)) ∧
    (∀ e, (fetchPageWithRetry resp attempt retries delayMs).1 = Except.error e →
      e = resp (attempt + (fetchPageWithRetry resp attempt retries delayMs).2.length) ∧
      (isRetryable e = false ∨
        (fetchPageWithRetry resp attempt retries delayMs).2.length = retries)) ∧
    (∀ b, (fetchPageWithRetry resp attempt retries delayMs).1 = Except.ok b →
      resp (attempt + (fetchPageWithRetry resp attempt retries delayMs).2.length)
        = .success b) := by
  induction retries generalizing attempt delayMs with
  | zero =>
    cases hr : resp attempt with
    | success body =>
      have heq : fetchPageWithRetry resp attempt 0 delayMs = (Except.ok body, []) := by
        simp [fetchPageWithRetry, hr]
      rw [heq]
      refine ⟨by simp, by simp, by simp, ?_⟩
      intro b hb
      injection hb with hb2
      subst hb2
      simpa using hr
    | httpError s =>
      have heq : fetchPageWithRetry resp attempt 0 delayMs
          = (Except.error (.httpError s), []) := by
        simp [fetchPageWithRetry, hr]
      rw [heq]
      refine ⟨by simp, by simp, ?_, by simp⟩
      intro e he
      injection he with he2
      subst he2
      exact ⟨by simpa using hr.symm, Or.inr rfl⟩
    | networkError =>
      have heq : fetchPageWithRetry resp attempt 0 delayMs
          = (Except.error .networkError, []) := by
        simp [fetchPageWithRetry, hr]
      rw [heq]
      refine ⟨by simp, by simp, ?_, by simp⟩
      intro e he
      injection he with he2
      subst he2
      exact ⟨by simpa using hr.symm, Or.inr rfl⟩
  | succ n ih =>
    cases hr : resp attempt with
    | success body =>
      have heq : fetchPageWithRetry resp attempt (n + 1) delayMs = (Except.ok body, []) := by
        simp [fetchPageWithRetry, hr]
      rw [heq]
      refine ⟨by simp, by simp, by simp, ?_⟩
      intro b hb
      injection hb with hb2
      subst hb2
      simpa using hr
    | httpError s =>
      by_cases hret : isRetryable (.httpError s) = true
      · have heq : fetchPageWithRetry resp attempt (n + 1) delayMs =
            ((fetchPageWithRetry resp (attempt + 1) n (delayMs * 2)).1,
              delayMs * 2 :: (fetchPageWithRetry resp (attempt + 1) n (delayMs * 2)).2) := by
          simp [fetchPageWithRetry, hr, hret]
        obtain ⟨ih1, ih2, ih3, ih4⟩ := ih (attempt + 1) (delayMs * 2)
        rw [heq]
        refine ⟨?_, ?_, ?_, ?_⟩
        · simpa using Nat.succ_le_succ ih1
        · intro k hk
          cases k with
          | zero =>
            refine ⟨by rw [Nat.add_zero, hr]; exact hret, ?_⟩
            simp only [List.getD_cons_zero]
            ring
          | succ j =>
            simp only [List.length_cons] at hk
            have hj : j < (fetchPageWithRetry resp (attempt + 1) n (delayMs * 2)).2.length := by
              omega
            obtain ⟨hjr, hjd⟩ := ih2 j hj
            constructor
            · have harith : attempt + 1 + j = attempt + (j + 1) := by omega
              rwa [harith] at hjr
            · simp only [List.getD_cons_succ]
              rw [hjd]
              ring
        · intro e he
          simp only at he
          obtain ⟨h1, h2⟩ := ih3 e he
          constructor
          · rw [h1]
            congr 1
            simp only [List.length_cons]
            omega
          · rcases h2 with h | h
            · exact Or.inl h
            · right
              simp only [List.length_cons, h]
        · intro b hb
          simp only at hb
          have hok := ih4 b hb
          have harith : attempt +
              (delayMs * 2 :: (fetchPageWithRetry resp (attempt + 1) n (delayMs * 2)).2).length
              = attempt + 1 + (fetchPageWithRetry resp (attempt + 1) n (delayMs * 2)).2.length := by
            simp only [List.length_cons]
            omega
          rw [harith]
          exact hok
      · have heq : fetchPageWithRetry resp attempt (n + 1) delayMs
            = (Except.error (.httpError s), []) := by
          simp [fetchPageWithRetry, hr, hret]
        rw [heq]
        refine ⟨by simp, by simp, ?_, by simp⟩
        intro e he
        injection he with he2
        subst he2
        refine ⟨by simpa using hr.symm, Or.inl ?_⟩
        simpa using hret
    | networkError =>
      have hret : isRetryable FetchOutcome.networkError = true := rfl
      have heq : fetchPageWithRetry resp attempt (n + 1) delayMs =
          ((fetchPageWithRetry resp (attempt + 1) n (delayMs * 2)).1,
            delayMs * 2 :: (fetchPageWithRetry resp (attempt + 1) n (delayMs * 2)).2) := by
        simp [fetchPageWithRetry, hr, hret]
      obtain ⟨ih1, ih2, ih3, ih4⟩ := ih (attempt + 1) (delayMs * 2)
      rw [heq]
      refine ⟨?_, ?_, ?_, ?_⟩
      · simpa using Nat.succ_le_succ ih1
      · intro k hk
        cases k with
        | zero =>
          refine ⟨by rw [Nat.add_zero, hr]; exact hret, ?_⟩
          simp only [List.getD_cons_zero]
          ring
        | succ j =>
          simp only [List.length_cons] at hk
          have hj : j < (fetchPageWithRetry resp (attempt + 1) n (delayMs * 2)).2.length := by
            omega
          obtain ⟨hjr, hjd⟩ := ih2 j hj
          constructor
          · have harith : attempt + 1 + j = attempt + (j + 1) := by omega
            rwa [harith] at hjr
          · simp only [List.getD_cons_succ]
            rw [hjd]
            ring
      · intro e he
        simp only at he
        obtain ⟨h1, h2⟩ := ih3 e he
        constructor
        · rw [h1]
          congr 1
          simp only [List.length_cons]
          omega
        · rcases h2 with h | h
          · exact Or.inl h
          · right
            simp only [List.length_cons, h]
      · intro b hb
        simp only at hb
        have hok := ih4 b hb
        have harith : attempt +
            (delayMs * 2 :: (fetchPageWithRetry resp (attempt + 1) n (delayMs * 2)).2).length
            = attempt + 1 + (fetchPageWithRetry resp (attempt + 1) n (delayMs * 2)).2.length := by
          simp only [List.length_cons]
          omega
        rw [harith]
        exact hok

/-- **C6.** `fetchPageWithRetry` retries exactly while retries remain and the
failure is retryable (network-level, or HTTP 429/502/503): every performed
retry was triggered by such a failure; an error is surfaced only when it is
non-retryable (e.g. 404, with zero retries) or the 3 retries are exhausted;
and at most 4 attempts (1 initial + 3 retries) are made. -/
theorem fetchRetry_policy (resp : ℕ → FetchOutcome) :
    (fetchPageWithRetry resp 0 MAX_RETRIES INITIAL_DELAY).2.length + 1 ≤ 4 ∧
    (∀ k, k < (fetchPageWithRetry resp 0 MAX_RETRIES INITIAL_DELAY).2.length →
      resp k = .networkError ∨ ∃ s, resp k = .httpError s ∧ (s = 429 ∨ s = 502 ∨ s = 503)) ∧
    (∀ e, (fetchPageWithRetry resp 0 MAX_RETRIES INITIAL_DELAY).1 = Except.error e →
      e = resp ((fetchPageWithRetry resp 0 MAX_RETRIES INITIAL_DELAY).2.length) ∧
      (isRetryable e = false ∨
        (fetchPageWithRetry resp 0 MAX_RETRIES INITIAL_DELAY).2.length = MAX_RETRIES)) ∧
    (∀ b, (fetchPageWithRetry resp 0 MAX_RETRIES INITIAL_DELAY).1 = Except.ok b →
      resp ((fetchPageWithRetry resp 0 MAX_RETRIES INITIAL_DELAY).2.length) = .success b) ∧
    fetchPageWithRetry (fun _ => FetchOutcome.httpError 404) 0 MAX_RETRIES INITIAL_DELAY
      = (Except.error (.httpError 404), []) := by
  obtain ⟨h1, h2, h3, h4⟩ := fetchRetry_spec resp MAX_RETRIES 0 INITIAL_DELAY
  refine ⟨?_, ?_, ?_, ?_, rfl⟩
  · have hmr : MAX_RETRIES = 3 := rfl
    omega
  · intro k hk
    have hr := (h2 k hk).1
    rw [Nat.zero_add] at hr
    exact (isRetryable_iff _).1 hr
  · intro e he
    obtain ⟨ha, hb⟩ := h3 e he
    rw [Nat.zero_add] at ha
    exact ⟨ha, hb⟩
  · intro b hb
    have hr := h4 b hb
    rwa [Nat.zero_add] at hr

/-- Witness for C6: two 503 responses then a success yield a run of at most
4 attempts ending in the success observed after the performed retries. -/
theorem fetchRetry_policy_witness :
    (fetchPageWithRetry (fun n => if n < 2 then FetchOutcome.httpError 503
        else FetchOutcome.success "ok") 0 MAX_RETRIES INITIAL_DELAY).2.length + 1 ≤ 4 ∧
    (fun n => if n < 2 then FetchOutcome.httpError 503 else FetchOutcome.success "ok")
        ((fetchPageWithRetry (fun n => if n < 2 then FetchOutcome.httpError 503
          else FetchOutcome.success "ok") 0 MAX_RETRIES INITIAL_DELAY).2.length)
      = FetchOutcome.success "ok" := by
  obtain ⟨h1, -, -, h4, -⟩ := fetchRetry_policy
    (fun n => if n < 2 then FetchOutcome.httpError 503 else FetchOutcome.success "ok")
  exact ⟨h1, h4 "ok" rfl⟩

/-- **C7 counterexample.** With every attempt failing at network level, the
awaited backoff delays are 600, 1200 and 2400 ms — the source doubles
`delayMs` *before* the first wait — not the claimed 300, 600, 1200. -/
theorem fetchRetry_delays_cex :
    (fetchPageWithRetry (fun _ => FetchOutcome.networkError) 0 MAX_RETRIES INITIAL_DELAY).2
      = [600, 1200, 2400] ∧
    (fetchPageWithRetry (fun _ => FetchOutcome.networkError) 0 MAX_RETRIES INITIAL_DELAY).2
      ≠ [300, 600, 1200] := by decide

/-- **C7 (amended).** No delay is awaited before the first attempt (a run
whose first attempt does not retry awaits no delay at all), and the backoff
delay awaited before retry `k+1` is `INITIAL_DELAY * 2^(k+1)`, i.e. the
waits before retries 1, 2, 3 are 600 ms, 1200 ms and 2400 ms — double the
claimed 300/600/1200 sequence. -/
theorem fetchRetry_delays_amended (resp : ℕ → FetchOutcome) :
    (∀ k, k < (fetchPageWithRetry resp 0 MAX_RETRIES INITIAL_DELAY).2.length →
      (fetchPageWithRetry resp 0 MAX_RETRIES INITIAL_DELAY).2.getD k 0
        = INITIAL_DELAY * 2 ^ (k + 1)) ∧
    (isRetryable (resp 0) = false →
      (fetchPageWithRetry resp 0 MAX_RETRIES INITIAL_DELAY).2 = []) ∧
    (fetchPageWithRetry (fun _ => FetchOutcome.networkError) 0 MAX_RETRIES INITIAL_DELAY).2
      = [600, 1200, 2400] := by
  obtain ⟨-, h2, -, -⟩ := fetchRetry_spec resp MAX_RETRIES 0 INITIAL_DELAY
  refine ⟨fun k hk => (h2 k hk).2, ?_, by decide⟩
  intro hnr
  cases hr : resp 0 with
  | success body => simp [MAX_RETRIES, INITIAL_DELAY, fetchPageWithRetry, hr]
  | httpError s =>
    rw [hr] at hnr
    simp [MAX_RETRIES, INITIAL_DELAY, fetchPageWithRetry, hr, hnr]
  | networkError =>
    rw [hr] at hnr
    simp [isRetryable] at hnr

/-- Witness for C7 (amended): the first awaited delay under persistent
network failure is 600 ms, and a 404 run awaits no delay. -/
theorem fetchRetry_delays_amended_witness :
    (fetchPageWithRetry (fun _ => FetchOutcome.networkError)
        0 MAX_RETRIES INITIAL_DELAY).2.getD 0 0 = INITIAL_DELAY * 2 ^ 1 ∧
    (fetchPageWithRetry (fun _ => FetchOutcome.httpError 404)
        0 MAX_RETRIES INITIAL_DELAY).2 = [] := by
  refine ⟨(fetchRetry_delays_amended (fun _ => FetchOutcome.networkError)).1 0 (by decide), ?_⟩
  exact (fetchRetry_delays_amended (fun _ => FetchOutcome.httpError 404)).2.1 (by decide)

/-! ### Lemmas about the detail worker and the attribute passes -/

/-- **C8.** `scrapeItemDetails` never fails: it is a total function whose
value on any fetch error (including one surfaced by `fetchPageWithRetry`
after its retries) is the zero-value detail
`{price: null, priceText: "", description: "", attributes: {}}`, and whose
value on a fetched page is the extracted detail. -/
theorem scrapeItemDetails_total :
    (∀ e, scrapeItemDetails (Except.error e) = zeroDetail) ∧
    (∀ page, scrapeItemDetails (Except.ok page) =
      { price := parsePrice page.priceText
        priceText := page.priceText
        description := page.description
        attributes := scrapeAttributes page.infoFields page.fullRows }) ∧
    zeroDetail = { price := none, priceText := "", description := "", attributes := [] } ∧
    (∀ (resp : ℕ → FetchOutcome) (extract : String → DetailPage) (e : FetchOutcome),
      (fetchPageWithRetry resp 0 MAX_RETRIES INITIAL_DELAY).1 = Except.error e →
      scrapeItemDetails
        (Except.map extract (fetchPageWithRetry resp 0 MAX_RETRIES INITIAL_DELAY).1)
        = zeroDetail) := by
  refine ⟨fun e => rfl, fun page => rfl, rfl, ?_⟩
  intro resp extract e he
  rw [he]
  rfl

/-- Witness for C8: a fetch that fails with HTTP 404 yields the zero-value
detail through the worker. -/
theorem scrapeItemDetails_total_witness :
    scrapeItemDetails (Except.map (fun _ => (⟨"", "", [], []⟩ : DetailPage))
      (fetchPageWithRetry (fun _ => FetchOutcome.httpError 404)
        0 MAX_RETRIES INITIAL_DELAY).1) = zeroDetail :=
  scrapeItemDetails_total.2.2.2 (fun _ => FetchOutcome.httpError 404) _
    (FetchOutcome.httpError 404) rfl

lemma getAttr_cons (k' : String) (v' : AttrValue) (rest : List (String × AttrValue))
    (k2 : String) :
    getAttr ((k', v') :: rest) k2 = if k' = k2 then some v' else getAttr rest k2 := by
  by_cases h : k' = k2
  · simp [getAttr, List.find?, h]
  · simp [getAttr, List.find?, h]

lemma getAttr_setAttr (attrs : List (String × AttrValue)) (k k2 : String) (v : AttrValue) :
    getAttr (setAttr attrs k v) k2 = if k = k2 then some v else getAttr attrs k2 := by
  induction attrs with
  | nil =>
    rw [setAttr, getAttr_cons]
  | cons kv rest ih =>
    obtain ⟨k', v'⟩ := kv
    rw [setAttr]
    by_cases hk : k' = k
    · rw [if_pos hk, getAttr_cons, getAttr_cons]
      subst hk
      by_cases h : k' = k2
      · simp [h]
      · simp [h]
    · rw [if_neg hk, getAttr_cons, getAttr_cons, ih]
      by_cases h : k = k2
      · subst h
        rw [if_pos rfl, if_pos rfl, if_neg hk]
      · rw [if_neg h, if_neg h]

lemma getAttr_secondPass (fullRows : List FullRowItem)
    (attrs : List (String × AttrValue)) (k : String) :
    getAttr (secondPass attrs fullRows) k =
      match (fullRows.reverse).find? (writesKey k) with
      | some fr => some (splitCommaRule fr.width75Text)
      | none => getAttr attrs k := by
  induction fullRows generalizing attrs with
  | nil => simp [secondPass]
  | cons fr t ih =>
    simp only [secondPass] at ih ⊢
    simp only [List.foldl_cons]
    rw [ih (secondPassStep attrs fr), List.reverse_cons, List.find?_append]
    cases hfind : t.reverse.find? (writesKey k) with
    | some fr2 => rfl
    | none =>
      simp only [Option.none_or]
      by_cases hw : writesKey k fr = true
      · have hfr : List.find? (writesKey k) [fr] = some fr := by
          simp [List.find?, hw]
        rw [hfr]
        simp only [writesKey, Bool.and_eq_true, decide_eq_true_eq] at hw
        obtain ⟨⟨⟨hkey, hne⟩, hwt⟩, hvin⟩ := hw
        rw [secondPassStep, if_pos ⟨hne, hwt, hvin⟩, getAttr_setAttr, if_pos hkey]
      · have hfr : List.find? (writesKey k) [fr] = none := by
          simp only [List.find?]
          rw [Bool.not_eq_true] at hw
          rw [hw]
        rw [hfr]
        rw [secondPassStep]
        by_cases hcond : fr.key ≠ "" ∧ fr.width75Text ≠ "" ∧ fr.key ≠ "VIN Number"
        · rw [if_pos hcond, getAttr_setAttr]
          have hkne : fr.key ≠ k := by
            intro hkeq
            apply hw
            simp only [writesKey, Bool.and_eq_true, decide_eq_true_eq]
            exact ⟨⟨⟨hkeq, hcond.1⟩, hcond.2.1⟩, hcond.2.2⟩
          rw [if_neg hkne]
        · rw [if_neg hcond]

/-- `writesKey "VIN Number"` is contradictory: a full-row element writing the
key `"VIN Number"` would need `key = "VIN Number"` and `key ≠ "VIN Number"`. -/
lemma writesKey_vin (fr : FullRowItem) : writesKey "VIN Number" fr = false := by
  by_cases h : fr.key = "VIN Number"
  · simp [writesKey, h]
  · simp [writesKey, h]

/-- **C9 counterexample.** The second pass assigns unconditionally, so it
*overwrites* a first-pass attribute with the same label: with a first-pass
field `Color ↦ Red` and a full-row list item `Color ↦ Blue`, the final
attribute map holds `Blue`, not the first-pass value `Red`. -/
theorem secondPass_overwrite_cex :
    getAttr (firstPass [⟨"Color", false, false, "", "Red"⟩]) "Color"
      = some (.scalar "Red") ∧
    getAttr (scrapeAttributes [⟨"Color", false, false, "", "Red"⟩]
        [⟨"Color", "Blue"⟩]) "Color" = some (.scalar "Blue") ∧
    AttrValue.scalar "Blue" ≠ AttrValue.scalar "Red" := by decide

/-- **C9 (amended).** The second pass adds *or overwrites* attributes: the
value at key `k` is unchanged from the first pass unless some full-row item
with non-empty key `k ≠ "VIN Number"` and non-empty value writes it, in
which case it is the comma-split value of the last such item (so a first-pass
value can be replaced); the same comma-split rule is applied, and an
attribute labelled `"VIN Number"` is never added or changed by the second
pass. -/
theorem scrapeAttributes_second_pass_amended (fields : List InfoField)
    (fullRows : List FullRowItem) :
    (getAttr (scrapeAttributes fields fullRows) "VIN Number"
      = getAttr (firstPass fields) "VIN Number") ∧
    (∀ k, (∀ fr ∈ fullRows, writesKey k fr = false) →
      getAttr (scrapeAttributes fields fullRows) k = getAttr (firstPass fields) k) ∧
    (∀ k v, getAttr (scrapeAttributes fields fullRows) k = some v →
      getAttr (firstPass fields) k = some v ∨
      ∃ fr ∈ fullRows, writesKey k fr = true ∧ v = splitCommaRule fr.width75Text) ∧
    (∀ k, getAttr (scrapeAttributes fields fullRows) k =
      match (fullRows.reverse).find? (writesKey k) with
      | some fr => some (splitCommaRule fr.width75Text)
      | none => getAttr (firstPass fields) k) := by
  simp only [scrapeAttributes]
  have hchar := fun k => getAttr_secondPass fullRows (firstPass fields) k
  refine ⟨?_, ?_, ?_, hchar⟩
  · rw [hchar "VIN Number"]
    have hnone : (fullRows.reverse).find? (writesKey "VIN Number") = none := by
      rw [List.find?_eq_none]
      intro fr _
      rw [writesKey_vin]
      simp
    rw [hnone]
  · intro k hk
    rw [hchar k]
    have hnone : (fullRows.reverse).find? (writesKey k) = none := by
      rw [List.find?_eq_none]
      intro fr hfr
      rw [hk fr (List.mem_reverse.1 hfr)]
      simp
    rw [hnone]
  · intro k v hv
    rw [hchar k] at hv
    cases hfind : (fullRows.reverse).find? (writesKey k) with
    | none =>
      rw [hfind] at hv
      exact Or.inl hv
    | some fr =>
      rw [hfind] at hv
      injection hv with hv2
      refine Or.inr ⟨fr, ?_, List.find?_some hfind, hv2.symm⟩
      exact List.mem_reverse.1 (List.mem_of_find?_eq_some hfind)

/-- Witness for C9 (amended): a key no full-row item writes keeps its
first-pass value, and a key a full-row item does write gets the comma-split
value. -/
theorem scrapeAttributes_second_pass_amended_witness :
    getAttr (scrapeAttributes [⟨"Color", false, false, "", "Red"⟩]
        [⟨"Seats", "A, B"⟩]) "Color"
      = getAttr (firstPass [⟨"Color", false, false, "", "Red"⟩]) "Color" ∧
    (getAttr (firstPass [⟨"Color", false, false, "", "Red"⟩]) "Seats"
        = some (AttrValue.values ["A", "B"]) ∨
      ∃ fr ∈ ([⟨"Seats", "A, B"⟩] : List FullRowItem), writesKey "Seats" fr = true ∧
        AttrValue.values ["A", "B"] = splitCommaRule fr.width75Text) := by
  constructor
  · exact (scrapeAttributes_second_pass_amended [⟨"Color", false, false, "", "Red"⟩]
      [⟨"Seats", "A, B"⟩]).2.1 "Color" (by decide)
  · exact (scrapeAttributes_second_pass_amended [⟨"Color", false, false, "", "Red"⟩]
      [⟨"Seats", "A, B"⟩]).2.2.1 "Seats" (AttrValue.values ["A", "B"]) (by decide)

/-! ### Lemmas about outlier detection -/

lemma mem_outlierFold (l : List (String × ℚ)) (lo hi : ℚ) (s : Finset String) (x : String) :
    (x ∈ l.foldl
        (fun s lp => if lp.2 < lo ∨ hi < lp.2 then insert lp.1 s else s) s) ↔
      x ∈ s ∨ ∃ lp ∈ l, lp.1 = x ∧ (lp.2 < lo ∨ hi < lp.2) := by
  induction l generalizing s with
  | nil => simp
  | cons lp t ih =>
    simp only [List.foldl_cons]
    by_cases h : lp.2 < lo ∨ hi < lp.2
    · rw [if_pos h, ih]
      constructor
      · rintro (hx | hx)
        · rcases Finset.mem_insert.1 hx with rfl | hx
          · exact Or.inr ⟨lp, List.mem_cons_self _ _, rfl, h⟩
          · exact Or.inl hx
        · obtain ⟨q, hq, hq2⟩ := hx
          exact Or.inr ⟨q, List.mem_cons_of_mem _ hq, hq2⟩
      · rintro (hx | ⟨q, hq, hql, hqc⟩)
        · exact Or.inl (Finset.mem_insert_of_mem hx)
        · rcases List.mem_cons.1 hq with rfl | hq
          · exact Or.inl (by rw [← hql]; exact Finset.mem_insert_self _ _)
          · exact Or.inr ⟨q, hq, hql, hqc⟩
    · rw [if_neg h, ih]
      constructor
      · rintro (hx | hx)
        · exact Or.inl hx
        · obtain ⟨q, hq, h2⟩ := hx
          exact Or.inr ⟨q, List.mem_cons_of_mem _ hq, h2⟩
      · rintro (hx | ⟨q, hq, hql, hqc⟩)
        · exact Or.inl hx
        · rcases List.mem_cons.1 hq with rfl | hq
          · exact absurd hqc h
          · exact Or.inr ⟨q, hq, hql, hqc⟩

lemma mem_pricedOf (items : List ScrapedItem) (l : String) (p : ℚ) :
    (l, p) ∈ pricedOf items ↔
      ∃ it ∈ items, it.link = l ∧ it.price = some p ∧ 0 < p := by
  simp only [pricedOf, List.mem_map, List.mem_filter]
  constructor
  · rintro ⟨it, ⟨hit, hpos⟩, heq⟩
    obtain ⟨q, hq, hq0⟩ := (hasPositivePrice_iff it).1 hpos
    have h1 : it.link = l := congrArg Prod.fst heq
    have h2 : it.price.getD 0 = p := congrArg Prod.snd heq
    refine ⟨it, hit, h1, ?_, ?_⟩
    · rw [hq] at h2 ⊢
      simp only [Option.getD_some] at h2
      rw [h2]
    · rw [hq] at h2
      simp only [Option.getD_some] at h2
      rw [← h2]
      exact hq0
  · rintro ⟨it, hit, hlink, hprice, hpos⟩
    refine ⟨it, ⟨hit, (hasPositivePrice_iff it).2 ⟨p, hprice, hpos⟩⟩, ?_⟩
    rw [hlink, hprice]
    rfl

lemma sortedPricesOf_length (items : List ScrapedItem) :
    (sortedPricesOf items).length = (pricedOf items).length := by
  rw [sortedPricesOf, List.length_insertionSort, List.length_map]

lemma q1IndexOf_lt (items : List ScrapedItem) (h : 0 < (sortedPricesOf items).length) :
    q1IndexOf items < (sortedPricesOf items).length := by
  rw [q1IndexOf]
  omega

lemma q3IndexOf_lt (items : List ScrapedItem) (h : 0 < (sortedPricesOf items).length) :
    q3IndexOf items < (sortedPricesOf items).length := by
  rw [q3IndexOf]
  omega

lemma detectOutliers_mem (items : List ScrapedItem)
    (h4 : ¬ (pricedOf items).length < 4) (x : String) :
    x ∈ detectOutliers items ↔
      ∃ it ∈ items, ∃ p, it.price = some p ∧ 0 < p ∧ it.link = x ∧
        (p < lowerBoundOf items ∨ upperBoundOf items < p) := by
  rw [detectOutliers, if_neg h4, mem_outlierFold]
  simp only [Finset.not_mem_empty, false_or]
  constructor
  · rintro ⟨lp, hlp, hl, hcond⟩
    obtain ⟨l, p⟩ := lp
    obtain ⟨it, hit, hlink, hprice, hpos⟩ := (mem_pricedOf items l p).1 hlp
    simp only at hl hcond
    subst hl
    exact ⟨it, hit, p, hprice, hpos, hlink, hcond⟩
  · rintro ⟨it, hit, p, hprice, hpos, hlink, hcond⟩
    exact ⟨(x, p), (mem_pricedOf items x p).2 ⟨it, hit, hlink, hprice, hpos⟩, rfl, hcond⟩

/-- The value read at a quantile index is one of the positive prices. -/
lemma quantile_mem (items : List ScrapedItem) (i : ℕ)
    (hi : i < (sortedPricesOf items).length) :
    ∃ lp ∈ pricedOf items, lp.2 = (sortedPricesOf items).getD i 0 := by
  have hmem : (sortedPricesOf items).getD i 0 ∈ sortedPricesOf items := by
    rw [List.getD_eq_getElem _ _ hi]
    exact List.getElem_mem _
  rw [sortedPricesOf, List.mem_insertionSort, List.mem_map] at hmem
  obtain ⟨lp, hlp, heq⟩ := hmem
  exact ⟨lp, hlp, heq⟩

/-- **C4.** `detectOutliers` operates only on positive-priced items; with
fewer than 4 such items it returns the empty set; otherwise, with `Q1`/`Q3`
the sorted prices at indices `⌊0.25n⌋`/`⌊0.75n⌋` (both in range) and
`IQR = Q3 - Q1`, it flags exactly the identities of priced items whose price
lies outside the closed interval `[Q1 - 2*IQR, Q3 + 2*IQR]`. -/
theorem detectOutliers_spec (items : List ScrapedItem) :
    ((pricedOf items).length < 4 → detectOutliers items = ∅) ∧
    (4 ≤ (pricedOf items).length →
      (q1IndexOf items = (sortedPricesOf items).length / 4 ∧
        q3IndexOf items = 3 * (sortedPricesOf items).length / 4 ∧
        q1IndexOf items < (sortedPricesOf items).length ∧
        q3IndexOf items < (sortedPricesOf items).length ∧
        q1Of items = (sortedPricesOf items).getD (q1IndexOf items) 0 ∧
        q3Of items = (sortedPricesOf items).getD (q3IndexOf items) 0) ∧
      lowerBoundOf items = q1Of items - 2 * (q3Of items - q1Of items) ∧
      upperBoundOf items = q3Of items + 2 * (q3Of items - q1Of items) ∧
      (∀ x, x ∈ detectOutliers items ↔
        ∃ it ∈ items, ∃ p, it.price = some p ∧ 0 < p ∧ it.link = x ∧
          ¬(lowerBoundOf items ≤ p ∧ p ≤ upperBoundOf items))) := by
  constructor
  · intro hlt
    rw [detectOutliers, if_pos hlt]
  · intro h4
    have hlen : 0 < (sortedPricesOf items).length := by
      rw [sortedPricesOf_length]
      omega
    refine ⟨⟨rfl, rfl, q1IndexOf_lt items hlen, q3IndexOf_lt items hlen, rfl, rfl⟩,
      rfl, rfl, ?_⟩
    intro x
    rw [detectOutliers_mem items (by omega) x]
    constructor
    · rintro ⟨it, hit, p, hprice, hpos, hlink, hcond⟩
      refine ⟨it, hit, p, hprice, hpos, hlink, ?_⟩
      rcases hcond with h | h
      · intro hc
        exact absurd hc.1 (not_le.2 h)
      · intro hc
        exact absurd hc.2 (not_le.2 h)
    · rintro ⟨it, hit, p, hprice, hpos, hlink, hcond⟩
      refine ⟨it, hit, p, hprice, hpos, hlink, ?_⟩
      by_contra hno
      push_neg at hno
      exact hcond ⟨hno.1, hno.2⟩

/-- Witness for C4: among five priced items `[10, 10, 10, 10, 1000]` the
quantile bounds collapse to `[10, 10]` and the item priced 1000 is flagged. -/
theorem detectOutliers_spec_witness :
    "e" ∈ detectOutliers [⟨"a", some 10⟩, ⟨"b", some 10⟩, ⟨"c", some 10⟩,
      ⟨"d", some 10⟩, ⟨"e", some 1000⟩] := by
  obtain ⟨-, -, -, hmem⟩ := (detectOutliers_spec [⟨"a", some 10⟩, ⟨"b", some 10⟩,
    ⟨"c", some 10⟩, ⟨"d", some 10⟩, ⟨"e", some 1000⟩]).2 (by decide)
  rw [hmem "e"]
  refine ⟨⟨"e", some 1000⟩, by decide, 1000, rfl, by norm_num, rfl, ?_⟩
  have hq1 : q1Of [⟨"a", some 10⟩, ⟨"b", some 10⟩, ⟨"c", some 10⟩,
      ⟨"d", some 10⟩, ⟨"e", some 1000⟩] = 10 := by decide
  have hq3 : q3Of [⟨"a", some 10⟩, ⟨"b", some 10⟩, ⟨"c", some 10⟩,
      ⟨"d", some 10⟩, ⟨"e", some 1000⟩] = 10 := by decide
  have hhi : upperBoundOf [⟨"a", some 10⟩, ⟨"b", some 10⟩, ⟨"c", some 10⟩,
      ⟨"d", some 10⟩, ⟨"e", some 1000⟩] = 10 := by
    rw [upperBoundOf, hq1, hq3]
    norm_num
  rw [hhi]
  intro hc
  have := hc.2
  norm_num at this

/-- **C10.** When at least 4 positive-priced items exist and the two
positional quantiles coincide (zero IQR), `detectOutliers` flags exactly the
identities of priced items whose price differs from the common quantile
value; in particular, when every positive price equals one common value the
result is empty. -/
theorem detectOutliers_zero_iqr (items : List ScrapedItem)
    (h4 : 4 ≤ (pricedOf items).length) (hq : q1Of items = q3Of items) :
    (∀ x, x ∈ detectOutliers items ↔
      ∃ it ∈ items, ∃ p, it.price = some p ∧ 0 < p ∧ it.link = x ∧ p ≠ q1Of items) ∧
    (∀ v : ℚ, (∀ it ∈ items, ∀ p, it.price = some p → 0 < p → p = v) →
      detectOutliers items = ∅) := by
  have hlo : lowerBoundOf items = q1Of items := by
    rw [lowerBoundOf, ← hq]
    ring
  have hhi : upperBoundOf items = q1Of items := by
    rw [upperBoundOf, ← hq]
    ring
  have hiff : ∀ x, x ∈ detectOutliers items ↔
      ∃ it ∈ items, ∃ p, it.price = some p ∧ 0 < p ∧ it.link = x ∧ p ≠ q1Of items := by
    intro x
    rw [detectOutliers_mem items (by omega) x]
    constructor
    · rintro ⟨it, hit, p, hprice, hpos, hlink, hcond⟩
      refine ⟨it, hit, p, hprice, hpos, hlink, ?_⟩
      rw [hlo, hhi] at hcond
      rcases hcond with h | h
      · exact ne_of_lt h
      · exact (ne_of_lt h).symm
    · rintro ⟨it, hit, p, hprice, hpos, hlink, hcond⟩
      refine ⟨it, hit, p, hprice, hpos, hlink, ?_⟩
      rw [hlo, hhi]
      exact lt_or_gt_of_ne hcond
  refine ⟨hiff, ?_⟩
  intro v hv
  have hlen : 0 < (sortedPricesOf items).length := by
    rw [sortedPricesOf_length]
    omega
  have hq1v : q1Of items = v := by
    obtain ⟨lp, hlp, heq⟩ := quantile_mem items (q1IndexOf items) (q1IndexOf_lt items hlen)
    obtain ⟨l, p⟩ := lp
    obtain ⟨it, hit, -, hprice, hpos⟩ := (mem_pricedOf items l p).1 hlp
    simp only at heq
    rw [q1Of, ← heq]
    exact hv it hit p hprice hpos
  rw [Finset.eq_empty_iff_forall_not_mem]
  intro x hx
  obtain ⟨it, hit, p, hprice, hpos, -, hne⟩ := (hiff x).1 hx
  exact hne (by rw [hq1v]; exact hv it hit p hprice hpos)

/-- Witness for C10: four items all priced 5 have coinciding quantiles and an
empty outlier set. -/
theorem detectOutliers_zero_iqr_witness :
    detectOutliers [⟨"a", some 5⟩, ⟨"b", some 5⟩, ⟨"c", some 5⟩, ⟨"d", some 5⟩] = ∅ := by
  have h := (detectOutliers_zero_iqr
    [⟨"a", some 5⟩, ⟨"b", some 5⟩, ⟨"c", some 5⟩, ⟨"d", some 5⟩]
    (by decide) (by decide)).2 5
  apply h
  intro it hit p hp hpos
  have hel : it = ⟨"a", some 5⟩ ∨ it = ⟨"b", some 5⟩ ∨ it = ⟨"c", some 5⟩
      ∨ it = ⟨"d", some 5⟩ := by
    simpa using hit
  have hps : it.price = some 5 := by
    rcases hel with rfl | rfl | rfl | rfl <;> rfl
  rw [hps] at hp
  injection hp with hp2
  exact hp2.symm

end OpenSooq
